import Mathlib

/-!
Verification of the `kb` personal knowledge-base engine (Go sources under
`cmd/kb`, `internal/store`, `internal/api`) against its natural-language
specification.  The Go store layer is shallowly embedded: SQLite tables
become lists of row structures, fallible operations return `Except`,
float64 values are modelled as real numbers (for the cosine arithmetic),
as rationals (for confidence weights that are only stored and compared),
or as 64-bit bit patterns, i.e. naturals below 2^64 (for the binary blob
codec, which is bit-oriented and does no arithmetic).
-/

namespace KB

/-! ### Binary vector codec (`internal/store/sqlite.go`, `vectorToBlob` / `blobToVector`)

A float64 component is represented by its `math.Float64bits` bit pattern,
a natural number below 2^64.  `vectorToBlob` lays out each component as
8 little-endian bytes (`binary.LittleEndian.PutUint64`); `blobToVector`
reads the blob back 8 bytes at a time (`binary.LittleEndian.Uint64`),
ignoring a trailing fragment shorter than 8 bytes (Go allocates
`len(b)/8` components). -/

/-- Little-endian byte decomposition of a 64-bit word, as written by
`binary.LittleEndian.PutUint64`: byte `i` is `(w >> 8*i) & 0xff`. -/
def word64ToBytes (w : ℕ) : List ℕ :=
  [w % 256, w / 256 % 256, w / 65536 % 256, w / 16777216 % 256,
   w / 4294967296 % 256, w / 1099511627776 % 256,
   w / 281474976710656 % 256, w / 72057594037927936 % 256]

/-- Little-endian recomposition of 8 bytes into a 64-bit word, as read by
`binary.LittleEndian.Uint64`. -/
def bytesToWord64 (b0 b1 b2 b3 b4 b5 b6 b7 : ℕ) : ℕ :=
  b0 + 256 * b1 + 65536 * b2 + 16777216 * b3 + 4294967296 * b4 +
    1099511627776 * b5 + 281474976710656 * b6 + 72057594037927936 * b7

/-- Embedding of `vectorToBlob`: 8 little-endian bytes per component. -/
def vectorToBlob (v : List ℕ) : List ℕ :=
  (v.map word64ToBytes).flatten

/-- Embedding of `blobToVector`: decode the blob 8 bytes at a time; a
trailing fragment of fewer than 8 bytes is dropped (`len(b)/8` floor). -/
def blobToVector : List ℕ → List ℕ
  | b0 :: b1 :: b2 :: b3 :: b4 :: b5 :: b6 :: b7 :: rest =>
      bytesToWord64 b0 b1 b2 b3 b4 b5 b6 b7 :: blobToVector rest
  | _ => []

/-! ### Cosine similarity (`internal/store/sqlite.go`, `cosineSimilarity`;
identical code in the embedding package's `CosineSimilarity`)

Float64 arithmetic is modelled over the real numbers.  The source first
returns 0 on a length mismatch, then accumulates `dot`, `normA`, `normB`
in one pass, returns 0 if either accumulated norm is zero, and otherwise
divides by `math.Sqrt(normA) * math.Sqrt(normB)`. -/

/-- Accumulated `dot`: the sum of pairwise products over the common prefix
(the source only runs it on equal-length inputs). -/
noncomputable def dot (a b : List ℝ) : ℝ :=
  ((a.zip b).map fun p => p.1 * p.2).sum

/-- Accumulated `normA` / `normB`: the sum of squared components. -/
noncomputable def normSq (a : List ℝ) : ℝ :=
  (a.map fun x => x * x).sum

open Classical in
/-- Embedding of `cosineSimilarity`: 0 on length mismatch, 0 when either
accumulated squared norm is zero, otherwise `dot / (sqrt normA * sqrt normB)`. -/
noncomputable def cosineSimilarity (a b : List ℝ) : ℝ :=
  if a.length = b.length then
    if normSq a = 0 ∨ normSq b = 0 then 0
    else dot a b / (Real.sqrt (normSq a) * Real.sqrt (normSq b))
  else 0

/-! ### Similarity ranking (`internal/store/sqlite.go`, `FindSimilar`)

`FindSimilar` scans every stored embedding whose entry id differs from
`excludeID`, pairs each scanned entry with its cosine similarity to the
query vector, sorts the pairs in place with a double loop

  for i from 0 to n-2: for j from i+1 to n-1:
    if results[j].Similarity > results[i].Similarity then swap i j

and truncates to `limit`.  The inner loop for a fixed pivot position is
`selPass` (whenever a later element beats the pivot they swap, so the old
pivot is left behind at that position and scanning continues with the new
pivot); the outer loop is `sortGo`, which runs one pass per position and
is fuelled by the list length, exactly the bounded loop of the source.
The sort is generic in the payload `ι` and the similarity order `α`. -/

section SimilaritySort

variable {ι : Type} {α : Type} [LinearOrder α]

/-- Embedding of one inner-loop pass at a fixed pivot position: `x` is the
current pivot `results[i]`, the list holds `results[i+1..]`.  Returns the
final pivot (the maximum) and the residue left at positions `i+1..`. -/
def selPass : ι × α → List (ι × α) → (ι × α) × List (ι × α)
  | x, [] => (x, [])
  | x, y :: ys =>
    if x.2 < y.2 then
      ((selPass y ys).1, x :: (selPass y ys).2)
    else
      ((selPass x ys).1, y :: (selPass x ys).2)

/-- Embedding of the outer loop: one `selPass` per position, fuelled by
the number of positions, exactly the source's `i` loop. -/
def sortGo : ℕ → List (ι × α) → List (ι × α)
  | 0, l => l
  | _ + 1, [] => []
  | n + 1, x :: xs => (selPass x xs).1 :: sortGo n (selPass x xs).2

/-- Embedding of the in-place sort of `FindSimilar`: descending by
similarity, via the double exchange loop. -/
def sortLoop (l : List (ι × α)) : List (ι × α) :=
  sortGo l.length l

/-- Insertion step of the spec-side stable descending sort: an element is
placed before the first element whose key is at most its own, so earlier
elements precede later elements of equal key. -/
def insertDescStable (x : ι × α) : List (ι × α) → List (ι × α)
  | [] => [x]
  | y :: ys => if y.2 ≤ x.2 then x :: y :: ys else y :: insertDescStable x ys

/-- Modelled from the spec: a stable sort by similarity descending
("ties broken by any stable, deterministic order"), as stable insertion
sort, for comparison with the source's `sortLoop`. -/
def stableSortDesc : List (ι × α) → List (ι × α)
  | [] => []
  | x :: xs => insertDescStable x (stableSortDesc xs)

end SimilaritySort

/-- Scan phase of `FindSimilar`: every stored `(entry id, vector)` row
except the excluded id, paired with its cosine similarity to the query.
Row order is the scan order of the stored table. -/
noncomputable def findSimilarPairs (vector : List ℝ) (stored : List (String × List ℝ))
    (excludeID : String) : List (String × ℝ) :=
  (stored.filter fun p => p.1 ≠ excludeID).map fun p => (p.1, cosineSimilarity vector p.2)

/-- Embedding of `FindSimilar`: scan, sort with the double exchange loop,
truncate to `limit` (the source truncates only when `len > limit`, which
is `List.take limit`). -/
noncomputable def findSimilar (vector : List ℝ) (stored : List (String × List ℝ))
    (limit : ℕ) (excludeID : String) : List (String × ℝ) :=
  (sortLoop (findSimilarPairs vector stored excludeID)).take limit

/-- Modelled from the spec: `findSimilar` as the spec words it, with the
sort replaced by the stable descending sort. -/
noncomputable def findSimilarSpec (vector : List ℝ) (stored : List (String × List ℝ))
    (limit : ℕ) (excludeID : String) : List (String × ℝ) :=
  (stableSortDesc (findSimilarPairs vector stored excludeID)).take limit

/-! ### Store rows (`schema.sql`) and row-level operations
(`internal/store/sqlite.go`)

Tables become lists of row structures; SQL errors become `Except.error`
carrying the driver's message.  Timestamps are abstract clock readings
(naturals); confidence weights are rationals (they are stored and
compared, never computed with). -/

structure EntryRow where
  id : String
  content : String
  createdAt : ℕ
  lastViewedAt : Option ℕ
deriving DecidableEq

structure TagRow where
  id : String
  name : String
  parentId : Option String
  createdAt : ℕ
deriving DecidableEq

structure EntryTagRow where
  entryId : String
  tagId : String
  confidence : ℚ
deriving DecidableEq

structure EmbeddingRow where
  entryId : String
  vector : List ℕ
  model : String
  createdAt : ℕ
deriving DecidableEq

structure StoreState where
  entries : List EntryRow
  tags : List TagRow
  entryTags : List EntryTagRow
  embeddings : List EmbeddingRow
deriving DecidableEq

/-- Embedding of `AddEntry`: INSERT the row, with `id` the fresh UUID and
`now` the clock reading.  The `id` PRIMARY KEY rejects a duplicate;
`content` is a non-null string so the NOT NULL constraint always passes —
this layer performs no emptiness or whitespace check on the content. -/
def addEntry (st : StoreState) (id : String) (now : ℕ) (content : String) :
    Except String (EntryRow × StoreState) :=
  if st.entries.any fun e => e.id == id then
    .error "insert entry: UNIQUE constraint failed: entries.id"
  else
    .ok (⟨id, content, now, none⟩,
      { st with entries := ⟨id, content, now, none⟩ :: st.entries })

/-- Embedding of Go's `strings.TrimSpace` on the character sequence of a
string: leading and trailing whitespace characters removed. -/
def trimSpace (s : List Char) : List Char :=
  ((s.dropWhile Char.isWhitespace).reverse.dropWhile Char.isWhitespace).reverse

/-- Embedding of the HTTP handler `addEntry` (`internal/api/server.go`):
empty or whitespace-only content (`strings.TrimSpace(req.Content) == ""`)
is rejected with HTTP 400 "content is required" before the store is
called; otherwise the store's `AddEntry` runs. -/
def addEntryHandler (st : StoreState) (id : String) (now : ℕ) (content : String) :
    Except String (EntryRow × StoreState) :=
  if trimSpace content.data = [] then .error "content is required"
  else addEntry st id now content

/-- Embedding of `DeleteEntry` under the store's actual runtime
configuration: `New` opens SQLite with a plain file path and never issues
`PRAGMA foreign_keys = ON` (no `_foreign_keys` DSN parameter either), so
foreign-key enforcement is left at SQLite's default OFF and the schema's
`ON DELETE CASCADE` clauses never fire.  The DELETE removes rows from
`entries` only; `entry_tags` and `embeddings` keep their rows.  When no
row matches, `RowsAffected == 0` and the call reports "entry not found". -/
def deleteEntry (st : StoreState) (id : String) : Except String StoreState :=
  if st.entries.any fun e => e.id == id then
    .ok { st with entries := st.entries.filter fun e => e.id != id }
  else
    .error "entry not found"

/-- Embedding of `GetEntry`'s row lookup: `QueryRow ... WHERE id = ?`
yields `sql.ErrNoRows` when the id is absent — the NotFound case. -/
def getEntry (st : StoreState) (id : String) : Except String EntryRow :=
  match st.entries.find? fun e => e.id == id with
  | some e => .ok e
  | none => .error "get entry: sql: no rows in result set"

/-- Embedding of the SELECT in `GetOrCreateTag`: look a tag up by exact
name. -/
def selectTagByName (tags : List TagRow) (name : String) : Option TagRow :=
  tags.find? fun t => t.name == name

/-- Embedding of the INSERT in `GetOrCreateTag`: the `name` UNIQUE
constraint and the `id` PRIMARY KEY reject duplicates. -/
def insertTag (tags : List TagRow) (t : TagRow) : Except String (List TagRow) :=
  if tags.any fun u => u.name == t.name then
    .error "insert tag: UNIQUE constraint failed: tags.name"
  else if tags.any fun u => u.id == t.id then
    .error "insert tag: UNIQUE constraint failed: tags.id"
  else
    .ok (t :: tags)

/-- Resumption of `GetOrCreateTag` after its SELECT: given the row the
SELECT observed, either return it unchanged or attempt the INSERT with a
fresh id.  Factored out so interleaved executions can be written down. -/
def finishGetOrCreate (observed : Option TagRow) (tags : List TagRow)
    (name : String) (parentId : Option String) (id : String) (now : ℕ) :
    Except String TagRow × List TagRow :=
  match observed with
  | some t => (.ok t, tags)
  | none =>
      match insertTag tags ⟨id, name, parentId, now⟩ with
      | .ok tags2 => (.ok ⟨id, name, parentId, now⟩, tags2)
      | .error e => (.error e, tags)

/-- Embedding of `GetOrCreateTag`: SELECT by name; if a row is found it
is returned as is (no write at all), otherwise a fresh row is INSERTed. -/
def getOrCreateTag (tags : List TagRow) (name : String) (parentId : Option String)
    (id : String) (now : ℕ) : Except String TagRow × List TagRow :=
  finishGetOrCreate (selectTagByName tags name) tags name parentId id now

/-- Interleaved execution of two concurrent `GetOrCreateTag` calls on the
same name in which both SELECTs run before either INSERT — possible
because the source wraps no transaction around its read-then-write.
Client A completes first, then client B runs against A's state. -/
def getOrCreateTagRace (tags : List TagRow) (name : String)
    (pA : Option String) (idA : String) (tA : ℕ)
    (pB : Option String) (idB : String) (tB : ℕ) :
    Except String TagRow × Except String TagRow × List TagRow :=
  let oA := selectTagByName tags name
  let oB := selectTagByName tags name
  let rA := finishGetOrCreate oA tags name pA idA tA
  let rB := finishGetOrCreate oB rA.2 name pB idB tB
  (rA.1, rB.1, rB.2)

/-- PRIMARY KEY match on `entry_tags(entry_id, tag_id)`. -/
def sameAssocKey (entryId tagId : String) (r : EntryTagRow) : Bool :=
  r.entryId == entryId && r.tagId == tagId

/-- Embedding of `LinkEntryTag`: `INSERT OR REPLACE` keyed on the
`(entry_id, tag_id)` primary key — an existing row with the key is
deleted and the new row inserted. -/
def linkEntryTag (rows : List EntryTagRow) (entryId tagId : String)
    (confidence : ℚ) : List EntryTagRow :=
  ⟨entryId, tagId, confidence⟩ :: rows.filter fun r => !sameAssocKey entryId tagId r

/-- At most one association row per `(entry, tag)` pair. -/
def NoDupAssoc (rows : List EntryTagRow) : Prop :=
  rows.Pairwise fun r s => ¬(r.entryId = s.entryId ∧ r.tagId = s.tagId)

/-- Reachable `entry_tags` table states: empty at schema creation, grown
by `LinkEntryTag` upserts; deletes only ever remove rows (modelled as an
arbitrary filter, covering cascade-on and cascade-off alike). -/
inductive EntryTagsReachable : List EntryTagRow → Prop where
  | init : EntryTagsReachable []
  | link (rows : List EntryTagRow) (entryId tagId : String) (confidence : ℚ) :
      EntryTagsReachable rows →
      EntryTagsReachable (linkEntryTag rows entryId tagId confidence)
  | remove (rows : List EntryTagRow) (p : EntryTagRow → Bool) :
      EntryTagsReachable rows → EntryTagsReachable (rows.filter p)

/-! ### Flat-to-tree tag materialization (`internal/api/server.go`,
`listTags`; the CLI's `printTree` in `cmd/kb/main.go` recurses over the
same roots/children maps)

The handler partitions the flat tag list into roots (null `parent_id`)
and a children map keyed by parent id, then recursively builds one node
per root.  The Go recursion carries no guard; here it is given explicit
fuel, and termination of the source is the statement that fuel
`tags.length + 1` is never exhausted — `buildNode` yields `none` only on
fuel exhaustion. -/

inductive TagNode where
  | node (id : String) (name : String) (children : List TagNode) : TagNode

/-- Root ids (`rootIDs`): tags with no parent, in list order. -/
def rootIds (tags : List TagRow) : List String :=
  (tags.filter fun t => t.parentId.isNone).map TagRow.id

/-- Children map at key `p`: ids of tags whose `parent_id` is `p`, in
the order the Go code appends them. -/
def childIds (tags : List TagRow) (p : String) : List String :=
  (tags.filter fun t => t.parentId == some p).map TagRow.id

/-- Name lookup (`tagMap`); a missing id yields Go's zero value `""`. -/
def tagName (tags : List TagRow) (id : String) : String :=
  ((tags.find? fun t => t.id == id).map TagRow.name).getD ""

mutual

/-- Embedding of the recursive `buildNode` closure, fuelled. -/
def buildNode (tags : List TagRow) : ℕ → String → Option TagNode
  | 0, _ => none
  | fuel + 1, id =>
    match buildNodes tags fuel (childIds tags id) with
    | some kids => some (.node id (tagName tags id) kids)
    | none => none
termination_by fuel _ => (fuel, 0)

/-- Column of `buildNode` calls over one children list, sharing fuel. -/
def buildNodes (tags : List TagRow) : ℕ → List String → Option (List TagNode)
  | _, [] => some []
  | fuel, c :: cs =>
    match buildNode tags fuel c, buildNodes tags fuel cs with
    | some n, some ns => some (n :: ns)
    | _, _ => none
termination_by fuel l => (fuel, l.length + 1)

end

/-- Embedding of the tree materialization: one `buildNode` per root, in
root order. -/
def buildTree (tags : List TagRow) (fuel : ℕ) : Option (List TagNode) :=
  buildNodes tags fuel (rootIds tags)

/-- Ancestor chain witness: `IsPath tags (x :: p)` says the parent chain
starting at tag id `x` runs through `p` and ends at a root.  Every node
the Go recursion visits sits at the head of such a chain. -/
def IsPath (tags : List TagRow) : List String → Prop
  | [] => False
  | [x] => ∃ t ∈ tags, t.id = x ∧ t.parentId = none
  | x :: y :: rest =>
      (∃ t ∈ tags, t.id = x ∧ t.parentId = some y) ∧ IsPath tags (y :: rest)

end KB

namespace KB

theorem bytesToWord64_word64ToBytes (w : ℕ) (h : w < 2 ^ 64) :
    bytesToWord64 (w % 256) (w / 256 % 256) (w / 65536 % 256) (w / 16777216 % 256)
      (w / 4294967296 % 256) (w / 1099511627776 % 256) (w / 281474976710656 % 256)
      (w / 72057594037927936 % 256) = w := by
  unfold bytesToWord64
  omega

/-- C9: the 8-bytes-per-component little-endian encoding round-trips
exactly: for every vector of valid float64 bit patterns (naturals below
2^64), `blobToVector (vectorToBlob v) = v`, component for component. -/
theorem C9_blob_roundtrip (v : List ℕ) (h : ∀ w ∈ v, w < 2 ^ 64) :
    blobToVector (vectorToBlob v) = v := by
  induction v with
  | nil => rfl
  | cons w v ih =>
      have hw : w < 2 ^ 64 := h w (List.mem_cons_self w v)
      have hrest : ∀ x ∈ v, x < 2 ^ 64 := fun x hx => h x (List.mem_cons_of_mem w hx)
      have : vectorToBlob (w :: v) = word64ToBytes w ++ vectorToBlob v := by
        simp [vectorToBlob, word64ToBytes]
      rw [this]
      simp only [word64ToBytes, List.cons_append, List.nil_append, blobToVector]
      rw [bytesToWord64_word64ToBytes w hw]
      simpa using ih hrest

/-- C9 witness: a concrete two-component vector round-trips. -/
theorem C9_blob_roundtrip_witness :
    (∀ w ∈ [4607182418800017408, 13830554455654793216], w < 2 ^ 64) ∧
      blobToVector (vectorToBlob [4607182418800017408, 13830554455654793216]) =
        [4607182418800017408, 13830554455654793216] :=
  ⟨by decide, C9_blob_roundtrip [4607182418800017408, 13830554455654793216] (by decide)⟩

section SimilaritySortLemmas

variable {ι : Type} {α : Type} [LinearOrder α]

theorem selPass_length (x : ι × α) (ys : List (ι × α)) :
    (selPass x ys).2.length = ys.length := by
  induction ys generalizing x with
  | nil => rfl
  | cons y ys ih =>
      simp only [selPass]
      split_ifs <;> simp [ih]

theorem selPass_perm (x : ι × α) (ys : List (ι × α)) :
    ((selPass x ys).1 :: (selPass x ys).2).Perm (x :: ys) := by
  induction ys generalizing x with
  | nil => simp [selPass]
  | cons y ys ih =>
      simp only [selPass]
      split_ifs with h
      · exact (List.Perm.swap x _ _).trans ((ih y).cons x)
      · exact ((List.Perm.swap y _ _).trans ((ih x).cons y)).trans
          (List.Perm.swap _ _ _)

theorem selPass_le (x : ι × α) (ys : List (ι × α)) :
    x.2 ≤ (selPass x ys).1.2 ∧ ∀ p ∈ (selPass x ys).2, p.2 ≤ (selPass x ys).1.2 := by
  induction ys generalizing x with
  | nil => exact ⟨le_refl _, by simp [selPass]⟩
  | cons y ys ih =>
      simp only [selPass]
      split_ifs with h
      · obtain ⟨h1, h2⟩ := ih y
        refine ⟨le_trans (le_of_lt h) h1, fun p hp => ?_⟩
        rcases List.mem_cons.mp hp with rfl | hp
        · exact le_trans (le_of_lt h) h1
        · exact h2 p hp
      · obtain ⟨h1, h2⟩ := ih x
        refine ⟨h1, fun p hp => ?_⟩
        rcases List.mem_cons.mp hp with rfl | hp
        · exact le_trans (not_lt.mp h) h1
        · exact h2 p hp

theorem sortGo_perm (n : ℕ) (l : List (ι × α)) : (sortGo n l).Perm l := by
  induction n generalizing l with
  | zero => rfl
  | succ n ih =>
      cases l with
      | nil => rfl
      | cons x xs =>
          simp only [sortGo]
          exact ((ih _).cons _).trans (selPass_perm x xs)

theorem sortGo_sorted (n : ℕ) (l : List (ι × α)) (h : l.length ≤ n) :
    (sortGo n l).Pairwise (fun p q => q.2 ≤ p.2) := by
  induction n generalizing l with
  | zero =>
      have : l = [] := List.length_eq_zero.mp (Nat.le_zero.mp h)
      subst this
      simp [sortGo]
  | succ n ih =>
      cases l with
      | nil => simp [sortGo]
      | cons x xs =>
          simp only [sortGo]
          refine List.Pairwise.cons (fun q hq => ?_) (ih _ ?_)
          · have hq' : q ∈ (selPass x xs).2 := (sortGo_perm n _).mem_iff.mp hq
            exact (selPass_le x xs).2 q hq'
          · rw [selPass_length]
            exact Nat.le_of_succ_le_succ h

theorem sortLoop_perm (l : List (ι × α)) : (sortLoop l).Perm l :=
  sortGo_perm l.length l

theorem sortLoop_sorted (l : List (ι × α)) :
    (sortLoop l).Pairwise (fun p q => q.2 ≤ p.2) :=
  sortGo_sorted l.length l (le_refl _)

end SimilaritySortLemmas

theorem cosineSimilarity_e1_e2 :
    cosineSimilarity [(1 : ℝ), 0] [0, 1] = 0 := by
  norm_num [cosineSimilarity, dot, normSq]

theorem cosineSimilarity_e1_e1 :
    cosineSimilarity [(1 : ℝ), 0] [1, 0] = 1 := by
  norm_num [cosineSimilarity, dot, normSq, Real.sqrt_one]

theorem dot_nil_left (b : List ℝ) : dot [] b = 0 := by simp [dot]

theorem dot_cons (x y : ℝ) (a b : List ℝ) :
    dot (x :: a) (y :: b) = x * y + dot a b := by
  simp [dot]

theorem normSq_nil : normSq ([] : List ℝ) = 0 := by simp [normSq]

theorem normSq_cons (x : ℝ) (a : List ℝ) :
    normSq (x :: a) = x * x + normSq a := by
  simp [normSq]

theorem normSq_nonneg (a : List ℝ) : 0 ≤ normSq a := by
  induction a with
  | nil => simp [normSq_nil]
  | cons x a ih =>
      rw [normSq_cons]
      nlinarith [mul_self_nonneg x]

theorem normSq_eq_zero_iff (a : List ℝ) : normSq a = 0 ↔ ∀ x ∈ a, x = 0 := by
  induction a with
  | nil => simp [normSq_nil]
  | cons x a ih =>
      rw [normSq_cons]
      constructor
      · intro h
        have hx : x * x = 0 ∧ normSq a = 0 := by
          constructor <;> nlinarith [mul_self_nonneg x, normSq_nonneg a]
        intro y hy
        rcases List.mem_cons.mp hy with rfl | hy
        · exact mul_self_eq_zero.mp hx.1
        · exact ih.mp hx.2 y hy
      · intro h
        have hx : x = 0 := h x (List.mem_cons_self x a)
        have ha : normSq a = 0 := ih.mpr fun y hy => h y (List.mem_cons_of_mem x hy)
        rw [hx, ha]
        ring

theorem dot_self (a : List ℝ) : dot a a = normSq a := by
  induction a with
  | nil => rw [dot_nil_left, normSq_nil]
  | cons x a ih => rw [dot_cons, normSq_cons, ih]

theorem dot_sq_le (a b : List ℝ) (hlen : a.length = b.length) :
    dot a b ^ 2 ≤ normSq a * normSq b := by
  induction a generalizing b with
  | nil =>
      have : b = [] := List.length_eq_zero.mp hlen.symm
      subst this
      simp [dot_nil_left, normSq_nil]
  | cons x a ih =>
      cases b with
      | nil => simp at hlen
      | cons y b =>
          have h : a.length = b.length := by simpa using hlen
          have hAB := ih b h
          have hA := normSq_nonneg a
          have hB := normSq_nonneg b
          rw [dot_cons, normSq_cons, normSq_cons]
          rcases eq_or_lt_of_le hB with hB0 | hBpos
          · have hd : dot a b = 0 := by nlinarith [sq_nonneg (dot a b)]
            rw [hd, ← hB0]
            nlinarith [mul_nonneg hA (mul_self_nonneg y)]
          · nlinarith [sq_nonneg (x * normSq b - y * dot a b),
              mul_nonneg (sq_nonneg y) (sub_nonneg.mpr hAB),
              mul_nonneg hBpos.le (sub_nonneg.mpr hAB)]

/-- C2: `cosineSimilarity` is exactly 0 when the vectors differ in length
or when either accumulated squared norm is zero, and in the remaining
case the divisor `sqrt normA * sqrt normB` is nonzero, so the function is
total and never divides by zero. -/
theorem C2_cosine_total (a b : List ℝ) :
    (a.length ≠ b.length → cosineSimilarity a b = 0) ∧
      (normSq a = 0 ∨ normSq b = 0 → cosineSimilarity a b = 0) ∧
      (a.length = b.length → normSq a ≠ 0 → normSq b ≠ 0 →
        Real.sqrt (normSq a) * Real.sqrt (normSq b) ≠ 0 ∧
          cosineSimilarity a b =
            dot a b / (Real.sqrt (normSq a) * Real.sqrt (normSq b))) := by
  refine ⟨fun h => ?_, fun h => ?_, fun hlen hA hB => ?_⟩
  · rw [cosineSimilarity, if_neg h]
  · rcases Decidable.em (a.length = b.length) with hlen | hlen
    · rw [cosineSimilarity, if_pos hlen, if_pos h]
    · rw [cosineSimilarity, if_neg hlen]
  · have hApos : 0 < normSq a := lt_of_le_of_ne (normSq_nonneg a) (Ne.symm hA)
    have hBpos : 0 < normSq b := lt_of_le_of_ne (normSq_nonneg b) (Ne.symm hB)
    have hden : 0 < Real.sqrt (normSq a) * Real.sqrt (normSq b) :=
      mul_pos (Real.sqrt_pos.mpr hApos) (Real.sqrt_pos.mpr hBpos)
    refine ⟨ne_of_gt hden, ?_⟩
    rw [cosineSimilarity, if_pos hlen, if_neg (by simp [hA, hB])]

/-- C2 witness: concrete evaluations — a length mismatch yields 0, a
zero-norm vector yields 0, and a nonzero pair has a nonzero divisor. -/
theorem C2_cosine_total_witness :
    cosineSimilarity [(1 : ℝ)] [1, 2] = 0 ∧
      cosineSimilarity [(0 : ℝ)] [5] = 0 ∧
      Real.sqrt (normSq [(1 : ℝ)]) * Real.sqrt (normSq [(1 : ℝ)]) ≠ 0 :=
  ⟨(C2_cosine_total [(1 : ℝ)] [1, 2]).1 (by simp),
    (C2_cosine_total [(0 : ℝ)] [5]).2.1 (Or.inl (by norm_num [normSq])),
    ((C2_cosine_total [(1 : ℝ)] [(1 : ℝ)]).2.2 rfl (by norm_num [normSq])
      (by norm_num [normSq])).1⟩

/-- C3: for vectors of equal length the cosine similarity lies in
`[-1, 1]` (by the Cauchy–Schwarz inequality), and a nonzero vector has
similarity exactly 1 with itself. -/
theorem C3_cosine_bounds (a b : List ℝ) (hlen : a.length = b.length) :
    (-1 ≤ cosineSimilarity a b ∧ cosineSimilarity a b ≤ 1) ∧
      ((∃ x ∈ a, x ≠ 0) → cosineSimilarity a a = 1) := by
  constructor
  · rw [cosineSimilarity, if_pos hlen]
    split_ifs with h0
    · norm_num
    · push_neg at h0
      have hApos : 0 < normSq a := lt_of_le_of_ne (normSq_nonneg a) (Ne.symm h0.1)
      have hBpos : 0 < normSq b := lt_of_le_of_ne (normSq_nonneg b) (Ne.symm h0.2)
      have hden : 0 < Real.sqrt (normSq a) * Real.sqrt (normSq b) :=
        mul_pos (Real.sqrt_pos.mpr hApos) (Real.sqrt_pos.mpr hBpos)
      have habs : |dot a b| ≤ Real.sqrt (normSq a) * Real.sqrt (normSq b) := by
        rw [← Real.sqrt_sq_eq_abs, ← Real.sqrt_mul (normSq_nonneg a)]
        exact Real.sqrt_le_sqrt (dot_sq_le a b hlen)
      have : |dot a b / (Real.sqrt (normSq a) * Real.sqrt (normSq b))| ≤ 1 := by
        rw [abs_div, abs_of_pos hden]
        exact (div_le_one hden).mpr habs
      exact abs_le.mp this
  · intro hx
    have hA : normSq a ≠ 0 := by
      rw [Ne, normSq_eq_zero_iff]
      intro h
      obtain ⟨x, hxa, hne⟩ := hx
      exact hne (h x hxa)
    rw [cosineSimilarity, if_pos rfl, if_neg (by simp [hA]), dot_self,
      Real.mul_self_sqrt (normSq_nonneg a), div_self hA]

/-- C3 witness: the bounds at `[1,0]`, `[0,1]`, and self-similarity 1 of
the nonzero vector `[1,0]`. -/
theorem C3_cosine_bounds_witness :
    (-1 ≤ cosineSimilarity [(1 : ℝ), 0] [0, 1] ∧
        cosineSimilarity [(1 : ℝ), 0] [0, 1] ≤ 1) ∧
      cosineSimilarity [(1 : ℝ), 0] [(1 : ℝ), 0] = 1 :=
  ⟨(C3_cosine_bounds [(1 : ℝ), 0] [0, 1] rfl).1,
    (C3_cosine_bounds [(1 : ℝ), 0] [0, 1] rfl).2 ⟨1, by simp, one_ne_zero⟩⟩

/-- C1 counterexample: with query `[1,0]`, scanned embeddings
`A ↦ [0,1]`, `B ↦ [0,1]`, `C ↦ [1,0]` (similarities `0, 0, 1`) the source
returns `[C, B, A]`: the tied pair `A, B` comes out reversed relative to
the scan order, to the id order, and to the stable descending sort of the
spec (`[C, A, B]`).  On the two-element scan `A, B` alone the tie comes
out as `A, B`, so the tie order is not any fixed deterministic order of
the entries: the exchange sort is unstable under ties. -/
theorem C1_counterexample :
    findSimilar [1, 0] [("A", [0, 1]), ("B", [0, 1]), ("C", [1, 0])] 3 "X" =
        [("C", 1), ("B", 0), ("A", 0)] ∧
      findSimilarSpec [1, 0] [("A", [0, 1]), ("B", [0, 1]), ("C", [1, 0])] 3 "X" =
        [("C", 1), ("A", 0), ("B", 0)] ∧
      findSimilar [1, 0] [("A", [0, 1]), ("B", [0, 1])] 2 "X" =
        [("A", 0), ("B", 0)] := by
  refine ⟨?_, ?_, ?_⟩ <;>
    norm_num [findSimilar, findSimilarSpec, findSimilarPairs, sortLoop, sortGo,
      selPass, stableSortDesc, insertDescStable,
      cosineSimilarity_e1_e2, cosineSimilarity_e1_e1]

/-- C1 (amended): for every query vector, stored table, limit ≥ 0 and
excludeId, `FindSimilar` returns the scanned (entry, similarity) pairs
sorted by similarity descending — a permutation of the scanned pairs in
pairwise non-increasing similarity order — truncated to at most `limit`
results, and limit 0 yields the empty sequence.  (As the counterexample
shows, the descending order is produced by an unstable exchange sort, so
ties are NOT broken by a stable deterministic order.) -/
theorem C1_amended (vector : List ℝ) (stored : List (String × List ℝ))
    (limit : ℕ) (excludeID : String) :
    findSimilar vector stored limit excludeID
        = (sortLoop (findSimilarPairs vector stored excludeID)).take limit ∧
      (sortLoop (findSimilarPairs vector stored excludeID)).Perm
        (findSimilarPairs vector stored excludeID) ∧
      (sortLoop (findSimilarPairs vector stored excludeID)).Pairwise
        (fun p q => q.2 ≤ p.2) ∧
      (findSimilar vector stored limit excludeID).length ≤ limit ∧
      findSimilar vector stored 0 excludeID = [] :=
  ⟨rfl, sortLoop_perm _, sortLoop_sorted _,
    by simp [findSimilar],
    by simp [findSimilar]⟩

/-- C4 (code refutation): the store opens SQLite with a plain file path
and never enables foreign-key enforcement, so the schema's `ON DELETE
CASCADE` never fires.  Deleting entry `e1` from a store holding one tag
link and one embedding for it removes only the `entries` row — the
`entry_tags` row and the `embeddings` row survive as orphans — while a
subsequent get does return NotFound.  The schema's own cascade
declarations document the intended behaviour, so the claim is right and
the code (`New`) is at fault. -/
theorem C4_code_bug :
    deleteEntry
        { entries := [⟨"e1", "hello", 0, none⟩],
          tags := [⟨"t1", "golang", none, 0⟩],
          entryTags := [⟨"e1", "t1", 9 / 10⟩],
          embeddings := [⟨"e1", [0, 0, 128, 63], "voyage-3-lite", 0⟩] } "e1" =
        .ok { entries := [],
              tags := [⟨"t1", "golang", none, 0⟩],
              entryTags := [⟨"e1", "t1", 9 / 10⟩],
              embeddings := [⟨"e1", [0, 0, 128, 63], "voyage-3-lite", 0⟩] } ∧
      getEntry { entries := ([] : List EntryRow),
                 tags := [⟨"t1", "golang", none, 0⟩],
                 entryTags := [⟨"e1", "t1", 9 / 10⟩],
                 embeddings := [⟨"e1", [0, 0, 128, 63], "voyage-3-lite", 0⟩] } "e1" =
        .error "get entry: sql: no rows in result set" :=
  ⟨rfl, rfl⟩

/-- C5 counterexample: the store-level create (`AddEntry`) performs no
content validation, so a whitespace-only content string is stored
successfully — the claim fails over the core create operation (the CLI
`add` command reaches it without any check). -/
theorem C5_counterexample :
    addEntry { entries := [], tags := [], entryTags := [], embeddings := [] }
        "e1" 0 "   " =
      .ok (⟨"e1", "   ", 0, none⟩,
        { entries := [⟨"e1", "   ", 0, none⟩], tags := [], entryTags := [],
          embeddings := [] }) :=
  rfl

/-- C5 (amended): the empty/whitespace rejection lives at the HTTP
boundary: for every content string that trims to empty, the API handler
fails with the InvalidInput error "content is required" before the store
is called, so no entry is stored via the API; the store-level `AddEntry`
itself performs no validation. -/
theorem C5_amended (st : StoreState) (id : String) (now : ℕ) (content : String)
    (h : trimSpace content.data = []) :
    addEntryHandler st id now content = .error "content is required" := by
  rw [addEntryHandler, if_pos h]

/-- C5 amended witness: a single-space content is rejected by the handler. -/
theorem C5_amended_witness :
    addEntryHandler { entries := [], tags := [], entryTags := [], embeddings := [] }
        "e1" 0 " " = .error "content is required" :=
  C5_amended _ "e1" 0 " " (by decide)

/-- C6 counterexample: two concurrent `getOrCreate("golang", _)` calls
whose SELECTs both run before either INSERT (the source wraps no
transaction around its read-then-write): both observe the name as
absent, client A's INSERT wins, and client B's INSERT fails with the
name UNIQUE-constraint violation — B receives an error, not the same
tag id, and the source has no fallback re-read. -/
theorem C6_counterexample :
    getOrCreateTagRace [] "golang" none "id-A" 0 none "id-B" 1 =
      (.ok ⟨"id-A", "golang", none, 0⟩,
        .error "insert tag: UNIQUE constraint failed: tags.name",
        [⟨"id-A", "golang", none, 0⟩]) :=
  rfl

/-- C6 (amended): sequentially the idempotence does hold: whenever one
`GetOrCreateTag(n, p)` call succeeds, an immediately following call with
the same name — any parent, fresh id and clock — returns the very same
tag row (same id in particular) and leaves the table unchanged. -/
theorem C6_amended (tags : List TagRow) (name : String)
    (p1 p2 : Option String) (id1 id2 : String) (t1 t2 : ℕ)
    (tag1 : TagRow) (tags1 : List TagRow)
    (h : getOrCreateTag tags name p1 id1 t1 = (.ok tag1, tags1)) :
    getOrCreateTag tags1 name p2 id2 t2 = (.ok tag1, tags1) := by
  unfold getOrCreateTag finishGetOrCreate at h
  cases hsel : selectTagByName tags name with
  | some t =>
      rw [hsel] at h
      simp only [Prod.mk.injEq, Except.ok.injEq] at h
      obtain ⟨rfl, rfl⟩ := h
      unfold getOrCreateTag finishGetOrCreate
      rw [hsel]
  | none =>
      rw [hsel] at h
      cases hins : insertTag tags ⟨id1, name, p1, t1⟩ with
      | ok tags2 =>
          rw [hins] at h
          simp only [Prod.mk.injEq, Except.ok.injEq] at h
          obtain ⟨rfl, rfl⟩ := h
          have htags2 : tags2 = ⟨id1, name, p1, t1⟩ :: tags := by
            unfold insertTag at hins
            split_ifs at hins
            simp_all
          subst htags2
          unfold getOrCreateTag finishGetOrCreate
          have : selectTagByName (⟨id1, name, p1, t1⟩ :: tags) name =
              some ⟨id1, name, p1, t1⟩ := by
            simp [selectTagByName, List.find?]
          rw [this]
      | error e =>
          rw [hins] at h
          simp at h

/-- C6 amended witness: a concrete successful create followed by a second
call with a different parent and id returns the same row. -/
theorem C6_amended_witness :
    getOrCreateTag [⟨"id-A", "golang", none, 0⟩] "golang" (some "p") "id-B" 1 =
      (.ok ⟨"id-A", "golang", none, 0⟩, [⟨"id-A", "golang", none, 0⟩]) :=
  C6_amended [] "golang" none (some "p") "id-A" "id-B" 0 1 _ _ rfl

theorem linkEntryTag_noDupAssoc (rows : List EntryTagRow) (e t : String) (c : ℚ)
    (h : NoDupAssoc rows) : NoDupAssoc (linkEntryTag rows e t c) := by
  refine List.Pairwise.cons (fun s hs => ?_) (List.Pairwise.filter _ h)
  have := List.of_mem_filter hs
  simp only [sameAssocKey, Bool.not_eq_true', Bool.and_eq_false_iff,
    beq_eq_false_iff_ne, ne_eq] at this
  rintro ⟨he, ht⟩
  rcases this with h' | h' <;> exact h' (by simp [he, ht] at *; tauto)

theorem reachable_noDupAssoc (rows : List EntryTagRow)
    (h : EntryTagsReachable rows) : NoDupAssoc rows := by
  induction h with
  | init => exact List.Pairwise.nil
  | link rows e t c _ ih => exact linkEntryTag_noDupAssoc rows e t c ih
  | remove rows p _ ih => exact List.Pairwise.filter p ih

/-- C7: every reachable `entry_tags` state carries at most one
association row per (entry, tag) pair, and linking an already-linked
pair replaces its confidence: after linking the same pair with 0.4 and
then 0.9, the rows matching the pair are exactly one row carrying 0.9. -/
theorem C7_assoc_upsert (rows : List EntryTagRow) (h : EntryTagsReachable rows)
    (e t : String) :
    NoDupAssoc rows ∧
      (linkEntryTag (linkEntryTag rows e t (4 / 10)) e t (9 / 10)).filter
          (sameAssocKey e t) = [⟨e, t, 9 / 10⟩] := by
  refine ⟨reachable_noDupAssoc rows h, ?_⟩
  have hkey : ∀ c : ℚ, sameAssocKey e t ⟨e, t, c⟩ = true := by
    intro c
    simp [sameAssocKey]
  simp only [linkEntryTag, List.filter_cons, hkey, Bool.not_true,
    Bool.false_eq_true, if_false, if_true, List.filter_filter]
  rw [List.filter_eq_nil_iff.mpr]
  intro a ha
  cases hsk : sameAssocKey e t a <;> simp [hsk]

/-- C7 witness: the invariant and the 0.4-then-0.9 upsert on the empty
(initial) table with pair ("e1", "t1"). -/
theorem C7_assoc_upsert_witness :
    NoDupAssoc [] ∧
      (linkEntryTag (linkEntryTag [] "e1" "t1" (4 / 10)) "e1" "t1" (9 / 10)).filter
          (sameAssocKey "e1" "t1") = [⟨"e1", "t1", 9 / 10⟩] :=
  C7_assoc_upsert [] EntryTagsReachable.init "e1" "t1"

/-- C10: when a tag row with the requested name already exists,
`GetOrCreateTag` returns that row and performs no write at all: the
table is returned unchanged, so no row is created and the stored
parent_id (and every other field) stays as it was, even when the
requested parent differs from the stored one. -/
theorem C10_getOrCreate_frame (tags : List TagRow) (name : String)
    (p : Option String) (id : String) (now : ℕ) (t : TagRow)
    (h : selectTagByName tags name = some t) :
    getOrCreateTag tags name p id now = (.ok t, tags) := by
  unfold getOrCreateTag
  rw [h]
  rfl

/-- C10 witness: an existing "golang" row with no parent is returned
unchanged even though the call requests a different parent. -/
theorem C10_getOrCreate_frame_witness :
    getOrCreateTag [⟨"t1", "golang", none, 5⟩] "golang" (some "other") "fresh" 9 =
      (.ok ⟨"t1", "golang", none, 5⟩, [⟨"t1", "golang", none, 5⟩]) :=
  C10_getOrCreate_frame _ "golang" (some "other") "fresh" 9 _ rfl

theorem uniqueTag (tags : List TagRow) (hids : (tags.map TagRow.id).Nodup)
    {t u : TagRow} (ht : t ∈ tags) (hu : u ∈ tags) (h : t.id = u.id) : t = u :=
  List.inj_on_of_nodup_map hids ht hu h

theorem childIds_mem (tags : List TagRow) (x c : String)
    (h : c ∈ childIds tags x) : ∃ u ∈ tags, u.id = c ∧ u.parentId = some x := by
  simp only [childIds, List.mem_map, List.mem_filter] at h
  obtain ⟨u, ⟨hu, hpar⟩, hid⟩ := h
  exact ⟨u, hu, hid, by simpa using hpar⟩

theorem rootIds_mem (tags : List TagRow) (r : String)
    (h : r ∈ rootIds tags) : ∃ u ∈ tags, u.id = r ∧ u.parentId = none := by
  simp only [rootIds, List.mem_map, List.mem_filter] at h
  obtain ⟨u, ⟨hu, hpar⟩, hid⟩ := h
  exact ⟨u, hu, hid, by simpa [Option.isNone_iff_eq_none] using hpar⟩

theorem path_parent_mem (tags : List TagRow) (hids : (tags.map TagRow.id).Nodup) :
    ∀ q : List String, IsPath tags q → ∀ (x : String) (t : TagRow) (y : String),
      x ∈ q → t ∈ tags → t.id = x → t.parentId = some y → y ∈ q.tail := by
  intro q
  induction q with
  | nil => intro hq; simp [IsPath] at hq
  | cons z q' ih =>
      cases q' with
      | nil =>
          intro hq x t y hx ht hid hpar
          simp only [IsPath] at hq
          obtain ⟨u, hu, huid, hupar⟩ := hq
          have hxz : x = z := by simpa using hx
          have htu : t = u := uniqueTag tags hids ht hu (by rw [hid, hxz, huid])
          rw [htu, hupar] at hpar
          exact absurd hpar (by simp)
      | cons w rest =>
          intro hq x t y hx ht hid hpar
          simp only [IsPath] at hq
          obtain ⟨⟨u, hu, huid, hupar⟩, hrest⟩ := hq
          rcases List.mem_cons.mp hx with rfl | hx'
          · have htu : t = u := uniqueTag tags hids ht hu (hid.trans huid.symm)
            rw [htu, hupar] at hpar
            have hyw : w = y := Option.some.inj hpar
            simp [← hyw]
          · have := ih hrest x t y hx' ht hid hpar
            simp only [List.tail_cons] at this ⊢
            exact List.mem_cons_of_mem w this

theorem path_nodup (tags : List TagRow) (hids : (tags.map TagRow.id).Nodup) :
    ∀ q : List String, IsPath tags q → q.Nodup := by
  intro q
  induction q with
  | nil => intro hq; simp [IsPath] at hq
  | cons z q' ih =>
      cases q' with
      | nil => intro _; simp
      | cons w rest =>
          intro hq
          simp only [IsPath] at hq
          obtain ⟨⟨u, hu, huid, hupar⟩, hrest⟩ := hq
          have hnd : (w :: rest).Nodup := ih hrest
          refine List.nodup_cons.mpr ⟨fun hz => ?_, hnd⟩
          have hw := path_parent_mem tags hids (w :: rest) hrest z u w hz hu huid hupar
          simp only [List.tail_cons] at hw
          exact (List.nodup_cons.mp hnd).1 hw

theorem path_subset (tags : List TagRow) :
    ∀ q : List String, IsPath tags q → ∀ x ∈ q, x ∈ tags.map TagRow.id := by
  intro q
  induction q with
  | nil => intro hq; simp [IsPath] at hq
  | cons z q' ih =>
      cases q' with
      | nil =>
          intro hq x hx
          simp only [IsPath] at hq
          obtain ⟨u, hu, huid, _⟩ := hq
          have hxz : x = z := by simpa using hx
          subst hxz
          exact List.mem_map.mpr ⟨u, hu, huid⟩
      | cons w rest =>
          intro hq x hx
          simp only [IsPath] at hq
          obtain ⟨⟨u, hu, huid, _⟩, hrest⟩ := hq
          rcases List.mem_cons.mp hx with rfl | hx'
          · exact List.mem_map.mpr ⟨u, hu, huid⟩
          · exact ih hrest x hx'

theorem path_length_le (tags : List TagRow) (hids : (tags.map TagRow.id).Nodup)
    (q : List String) (h : IsPath tags q) : q.length ≤ tags.length := by
  have h1 : q.Nodup := path_nodup tags hids q h
  have h2 : q ⊆ tags.map TagRow.id := fun x hx => path_subset tags q h x hx
  have := (h1.subperm h2).length_le
  simpa using this

theorem build_isSome (tags : List TagRow) (hids : (tags.map TagRow.id).Nodup) :
    ∀ fuel : ℕ,
      (∀ x (p : List String), IsPath tags (x :: p) →
        tags.length + 1 ≤ fuel + p.length + 1 →
        (buildNode tags fuel x).isSome = true) ∧
      (∀ (cs : List String) x (p : List String), IsPath tags (x :: p) →
        (∀ c ∈ cs, c ∈ childIds tags x) →
        tags.length + 1 ≤ fuel + p.length + 2 →
        (buildNodes tags fuel cs).isSome = true) := by
  intro fuel
  induction fuel with
  | zero =>
      constructor
      · intro x p hpath hle
        exfalso
        have h1 : (x :: p).length ≤ tags.length := path_length_le tags hids _ hpath
        simp only [List.length_cons] at h1
        omega
      · intro cs x p hpath hcs hle
        cases cs with
        | nil => simp [buildNodes]
        | cons c cs' =>
            exfalso
            obtain ⟨u, hu, huid, hupar⟩ :=
              childIds_mem tags x c (hcs c (List.mem_cons_self c cs'))
            have hpath' : IsPath tags (c :: x :: p) := by
              simp only [IsPath]
              exact ⟨⟨u, hu, huid, hupar⟩, by simpa [IsPath] using hpath⟩
            have h1 : (c :: x :: p).length ≤ tags.length :=
              path_length_le tags hids _ hpath'
            simp only [List.length_cons] at h1
            omega
  | succ fuel ih =>
      have hS : ∀ x (p : List String), IsPath tags (x :: p) →
          tags.length + 1 ≤ (fuel + 1) + p.length + 1 →
          (buildNode tags (fuel + 1) x).isSome = true := by
        intro x p hpath hle
        have hT : (buildNodes tags fuel (childIds tags x)).isSome = true :=
          ih.2 (childIds tags x) x p hpath (fun c hc => hc) (by omega)
        obtain ⟨kids, hkids⟩ := Option.isSome_iff_exists.mp hT
        simp only [buildNode, hkids, Option.isSome_some]
      refine ⟨hS, ?_⟩
      intro cs x p hpath hcs hle
      induction cs with
      | nil => simp [buildNodes]
      | cons c cs' ihcs =>
          obtain ⟨u, hu, huid, hupar⟩ :=
            childIds_mem tags x c (hcs c (List.mem_cons_self c cs'))
          have hpath' : IsPath tags (c :: x :: p) := by
            simp only [IsPath]
            exact ⟨⟨u, hu, huid, hupar⟩, by simpa [IsPath] using hpath⟩
          have h1 : (buildNode tags (fuel + 1) c).isSome = true :=
            hS c (x :: p) hpath' (by simp only [List.length_cons]; omega)
          have h2 : (buildNodes tags (fuel + 1) cs').isSome = true :=
            ihcs fun d hd => hcs d (List.mem_cons_of_mem c hd)
          obtain ⟨n, hn⟩ := Option.isSome_iff_exists.mp h1
          obtain ⟨ns, hns⟩ := Option.isSome_iff_exists.mp h2
          simp only [buildNodes, hn, hns, Option.isSome_some]

/-- C8: for every stored flat tag list (unique ids, as the `tags` table's
PRIMARY KEY guarantees) — including lists whose parent references form a
cycle — the recursive flat-to-tree materialization from the root tags
terminates: with fuel `tags.length + 1` the fuelled recursion never
exhausts its fuel (`buildNode`/`buildNodes` return `none` only on fuel
exhaustion), because a parent cycle contains no root and is therefore
never reached from the roots. -/
theorem C8_tree_terminates (tags : List TagRow)
    (hids : (tags.map TagRow.id).Nodup) :
    (buildTree tags (tags.length + 1)).isSome = true := by
  rw [buildTree]
  have hS := (build_isSome tags hids (tags.length + 1)).1
  have hall : ∀ rs : List String, (∀ r ∈ rs, r ∈ rootIds tags) →
      (buildNodes tags (tags.length + 1) rs).isSome = true := by
    intro rs
    induction rs with
    | nil => intro _; simp [buildNodes]
    | cons r rs' ih =>
        intro hmem
        obtain ⟨u, hu, huid, hupar⟩ :=
          rootIds_mem tags r (hmem r (List.mem_cons_self r rs'))
        have hpath : IsPath tags [r] := by
          simp only [IsPath]
          exact ⟨u, hu, huid, hupar⟩
        have h1 : (buildNode tags (tags.length + 1) r).isSome = true :=
          hS r [] hpath (by omega)
        have h2 := ih fun d hd => hmem d (List.mem_cons_of_mem r hd)
        obtain ⟨n, hn⟩ := Option.isSome_iff_exists.mp h1
        obtain ⟨ns, hns⟩ := Option.isSome_iff_exists.mp h2
        simp only [buildNodes, hn, hns, Option.isSome_some]
  exact hall (rootIds tags) fun r hr => hr

/-- C8 witness: a stored list with a two-cycle (`a` parents `b`, `b`
parents `a`) alongside a root still materializes. -/
theorem C8_tree_terminates_witness :
    (buildTree [⟨"r", "root", none, 0⟩, ⟨"a", "a", some "b", 0⟩,
        ⟨"b", "b", some "a", 0⟩]
      (([⟨"r", "root", none, 0⟩, ⟨"a", "a", some "b", 0⟩,
        ⟨"b", "b", some "a", 0⟩] : List TagRow).length + 1)).isSome = true :=
  C8_tree_terminates _ (by decide)

end KB
